import Mathlib

/-!
Verification of the pixel-filter quantization core (src/filter.rs).

The Rust source operates on `f32` values.  The shallow embedding below uses
exact rationals (`ℚ`) for every floating-point quantity: all operations the
core performs on colors (additions, subtractions, multiplications, squared
distances, comparisons, rounding, truncating casts) are embedded as the exact
rational counterparts of the IEEE operations.  The sRGB ↔ Oklab conversion is
implemented by the external `palette` crate (not part of this repository); it
is modelled as an explicit pair of conversion functions (`ColorConv`) that the
embedded operations take as a parameter, so every theorem quantifies over the
conversion where the source calls `into_color()`.

A Rust panic (an `unwrap` failure, an out-of-bounds index, `x % 0`) is
modelled by the `RunResult.panic` constructor / by `Option.none` in the
per-pixel function.  The Rust `Result<_, ImageError>` channel of
`run_with_parameters` and `run` is modelled by `RunResult.errValue`; the
source never constructs an error value on that channel.
-/

/-- Perceptual color: the `Oklab` struct of the `palette` crate,
three `f32` channels modelled as exact rationals. -/
structure Oklab where
  l : ℚ
  a : ℚ
  b : ℚ
deriving DecidableEq

/-- Display color: the `Srgb` struct of the `palette` crate,
three `f32` channels modelled as exact rationals. -/
structure Srgb where
  red : ℚ
  green : ℚ
  blue : ℚ
deriving DecidableEq

/-- One RGBA pixel of the `image` crate buffer: four `u8` bytes. -/
structure Rgba where
  r : ℕ
  g : ℕ
  b : ℕ
  a : ℕ
deriving DecidableEq

/-- Componentwise addition on `Oklab` (the crate's `Add` impl). -/
def Oklab.add (u v : Oklab) : Oklab :=
  ⟨u.l + v.l, u.a + v.a, u.b + v.b⟩

/-- Componentwise subtraction on `Oklab` (the crate's `Sub` impl). -/
def Oklab.sub (u v : Oklab) : Oklab :=
  ⟨u.l - v.l, u.a - v.a, u.b - v.b⟩

/-- Scaling of an `Oklab` value by a scalar (the crate's `Mul<f32>` impl),
as in `error_c * color_dither`. -/
def Oklab.smul (u : Oklab) (c : ℚ) : Oklab :=
  ⟨u.l * c, u.a * c, u.b * c⟩

/-- `color.distance_squared(palette_color)`: squared Euclidean distance of
the three channels (`EuclideanDistance` impl of the `palette` crate). -/
def distSq (u v : Oklab) : ℚ :=
  (u.l - v.l) ^ 2 + (u.a - v.a) ^ 2 + (u.b - v.b) ^ 2

/-- The exact value of `std::f32::MAX` = (2^24 − 1) · 2^104,
the initial value of `dist_of_closest` in `find_closest`. -/
def f32MAX : ℚ := (2 ^ 128 : ℚ) - 2 ^ 104

/-- One iteration of the `for palette_color in palette` loop of
`find_closest` (src/filter.rs:167-173): keep the accumulator unless the
current entry is strictly closer. -/
def closestStep (color : Oklab) (acc : ℚ × Oklab) (p : Oklab) : ℚ × Oklab :=
  let d := distSq color p
  if d < acc.1 then (d, p) else acc

/-- `find_closest` (src/filter.rs:163-175): linear scan over the palette,
starting from the sentinel pair `(f32::MAX, Oklab::new(0,0,0))`, updating on
strict improvement only, and returning the closest color found. -/
def find_closest (palette : List Oklab) (color : Oklab) : Oklab :=
  (palette.foldl (closestStep color) (f32MAX, ⟨0, 0, 0⟩)).2

/-- `f32::round` of Rust: round half away from zero; always integer-valued. -/
def rustRound (q : ℚ) : ℚ :=
  if 0 ≤ q then ((⌊q + 1 / 2⌋ : ℤ) : ℚ) else ((⌈q - 1 / 2⌉ : ℤ) : ℚ)

/-- The Rust saturating cast `as u8` applied to an `f32`: truncate toward
zero and clamp into `0..=255`. -/
def as_u8 (q : ℚ) : ℕ :=
  if q < 0 then 0 else if 255 < q then 255 else (⌊q⌋).toNat

/- ------------------------------------------------------------------ -/
/- Correctness of the nearest-color search (claim C1).                 -/
/- ------------------------------------------------------------------ -/

lemma distSq_nonneg (u v : Oklab) : 0 ≤ distSq u v := by
  have h1 := sq_nonneg (u.l - v.l)
  have h2 := sq_nonneg (u.a - v.a)
  have h3 := sq_nonneg (u.b - v.b)
  unfold distSq; linarith

lemma distSq_self (u : Oklab) : distSq u u = 0 := by
  simp [distSq]

lemma distSq_eq_zero {u v : Oklab} (h : distSq u v = 0) : v = u := by
  have h1 := sq_nonneg (u.l - v.l)
  have h2 := sq_nonneg (u.a - v.a)
  have h3 := sq_nonneg (u.b - v.b)
  unfold distSq at h
  have e1 : (u.l - v.l) ^ 2 = 0 := by linarith
  have e2 : (u.a - v.a) ^ 2 = 0 := by linarith
  have e3 : (u.b - v.b) ^ 2 = 0 := by linarith
  have f1 : u.l = v.l := by have := sq_eq_zero_iff.mp e1; linarith
  have f2 : u.a = v.a := by have := sq_eq_zero_iff.mp e2; linarith
  have f3 : u.b = v.b := by have := sq_eq_zero_iff.mp e3; linarith
  cases u; cases v; simp_all

/-- Full behaviour of the `find_closest` fold from an arbitrary accumulator:
either no entry strictly improves on the accumulator and it is returned
unchanged, or the result is the first-listed entry attaining the minimum
distance among those that improve on the accumulator. -/
lemma closestAux (c : Oklab) :
    ∀ (l : List Oklab) (acc : ℚ × Oklab),
      (l.foldl (closestStep c) acc = acc ∧ ∀ p ∈ l, acc.1 ≤ distSq c p) ∨
      (∃ i, ∃ hi : i < l.length,
        l.foldl (closestStep c) acc
          = (distSq c (l.get ⟨i, hi⟩), l.get ⟨i, hi⟩) ∧
        distSq c (l.get ⟨i, hi⟩) < acc.1 ∧
        (∀ j, ∀ hj : j < l.length,
          distSq c (l.get ⟨i, hi⟩) ≤ distSq c (l.get ⟨j, hj⟩)) ∧
        (∀ j, ∀ hj : j < l.length, j < i →
          distSq c (l.get ⟨i, hi⟩) < distSq c (l.get ⟨j, hj⟩))) := by
  intro l
  induction l with
  | nil => intro acc; left; exact ⟨rfl, by simp⟩
  | cons x xs ih =>
    intro acc
    have hfold : (x :: xs).foldl (closestStep c) acc
        = xs.foldl (closestStep c) (closestStep c acc x) := rfl
    by_cases hd : distSq c x < acc.1
    · have hstep : closestStep c acc x = (distSq c x, x) := by
        simp [closestStep, hd]
      rcases ih (distSq c x, x) with ⟨heq, hall⟩ | ⟨i, hi, heq, hlt, hmin, hfirst⟩
      · right
        refine ⟨0, Nat.succ_pos xs.length, ?_, hd, ?_, ?_⟩
        · rw [hfold, hstep]; exact heq
        · intro j hj
          cases j with
          | zero => exact le_refl _
          | succ j0 =>
            exact hall _ (List.get_mem xs j0 (Nat.lt_of_succ_lt_succ hj))
        · intro j hj hj0
          exact absurd hj0 (Nat.not_lt_zero j)
      · right
        refine ⟨i + 1, Nat.succ_lt_succ hi, ?_, lt_trans hlt hd, ?_, ?_⟩
        · rw [hfold, hstep]; exact heq
        · intro j hj
          cases j with
          | zero => exact le_of_lt hlt
          | succ j0 =>
            exact hmin j0 (Nat.lt_of_succ_lt_succ hj)
        · intro j hj hji
          cases j with
          | zero => exact hlt
          | succ j0 =>
            exact hfirst j0 (Nat.lt_of_succ_lt_succ hj) (Nat.lt_of_succ_lt_succ hji)
    · have hstep : closestStep c acc x = acc := by
        simp [closestStep, hd]
      have hxd : acc.1 ≤ distSq c x := not_lt.mp hd
      rcases ih acc with ⟨heq, hall⟩ | ⟨i, hi, heq, hlt, hmin, hfirst⟩
      · left
        constructor
        · rw [hfold, hstep]; exact heq
        · intro p hp
          rcases List.mem_cons.mp hp with h | h
          · subst h; exact hxd
          · exact hall p h
      · right
        refine ⟨i + 1, Nat.succ_lt_succ hi, ?_, hlt, ?_, ?_⟩
        · rw [hfold, hstep]; exact heq
        · intro j hj
          cases j with
          | zero => exact le_of_lt (lt_of_lt_of_le hlt hxd)
          | succ j0 =>
            exact hmin j0 (Nat.lt_of_succ_lt_succ hj)
        · intro j hj hji
          cases j with
          | zero => exact lt_of_lt_of_le hlt hxd
          | succ j0 =>
            exact hfirst j0 (Nat.lt_of_succ_lt_succ hj) (Nat.lt_of_succ_lt_succ hji)

/-- Helper: specification of `find_closest` whenever some palette entry lies
strictly below the `f32::MAX` sentinel. -/
lemma find_closest_spec (palette : List Oklab) (c : Oklab)
    (h : ∃ p ∈ palette, distSq c p < f32MAX) :
    ∃ i, ∃ hi : i < palette.length,
      find_closest palette c = palette.get ⟨i, hi⟩ ∧
      (∀ j, ∀ hj : j < palette.length,
        distSq c (palette.get ⟨i, hi⟩) ≤ distSq c (palette.get ⟨j, hj⟩)) ∧
      (∀ j, ∀ hj : j < palette.length, j < i →
        distSq c (palette.get ⟨i, hi⟩) < distSq c (palette.get ⟨j, hj⟩)) := by
  rcases closestAux c palette (f32MAX, ⟨0, 0, 0⟩) with ⟨_, hall⟩ |
    ⟨i, hi, heq, _, hmin, hfirst⟩
  · rcases h with ⟨p, hp, hplt⟩
    exact absurd (hall p hp) (not_le.mpr hplt)
  · refine ⟨i, hi, ?_, hmin, hfirst⟩
    unfold find_closest
    rw [heq]

/-- Helper: a color already in the palette is returned unchanged. -/
lemma find_closest_self {palette : List Oklab} {c : Oklab}
    (h : c ∈ palette) : find_closest palette c = c := by
  have hex : ∃ p ∈ palette, distSq c p < f32MAX := by
    refine ⟨c, h, ?_⟩
    rw [distSq_self]
    unfold f32MAX
    norm_num
  rcases find_closest_spec palette c hex with ⟨i, hi, heq, hmin, _⟩
  rcases List.get_of_mem h with ⟨k, hk⟩
  have h0 : distSq c (palette.get ⟨i, hi⟩) ≤ 0 := by
    have := hmin k k.isLt
    rw [Fin.eta, hk, distSq_self] at this
    exact this
  have hz : distSq c (palette.get ⟨i, hi⟩) = 0 :=
    le_antisymm h0 (distSq_nonneg c (palette.get ⟨i, hi⟩))
  rw [heq]
  exact distSq_eq_zero hz

/-- C1: for every palette P and color c such that at least one entry of P has
squared perceptual distance to c strictly below `f32::MAX` (in particular,
for every non-empty palette of colors in the ordinary range), `find_closest`
returns the first-listed entry of P attaining the minimum squared distance:
it is an element of P, its distance is ≤ that of every entry, and every
earlier-listed entry is strictly farther. -/
theorem c1_find_closest_first_min (palette : List Oklab) (c : Oklab)
    (h : ∃ p ∈ palette, distSq c p < f32MAX) :
    ∃ i, ∃ hi : i < palette.length,
      find_closest palette c = palette.get ⟨i, hi⟩ ∧
      (∀ j, ∀ hj : j < palette.length,
        distSq c (palette.get ⟨i, hi⟩) ≤ distSq c (palette.get ⟨j, hj⟩)) ∧
      (∀ j, ∀ hj : j < palette.length, j < i →
        distSq c (palette.get ⟨i, hi⟩) < distSq c (palette.get ⟨j, hj⟩)) :=
  find_closest_spec palette c h

/-- C1 counterexample: with the sentinel initialisation
`(f32::MAX, Oklab::new(0,0,0))`, a one-entry palette whose squared distance
to the query reaches `f32::MAX` (here the distance is 2^128; in the `f32`
program the same squaring overflows to infinity) makes `find_closest` return
the sentinel color `(0,0,0)`, which is not an element of the palette: the
claim stated for every color and non-empty palette is false. -/
theorem c1_counterexample :
    find_closest [⟨18446744073709551616, 0, 0⟩] ⟨0, 0, 0⟩ ∉
      ([⟨18446744073709551616, 0, 0⟩] : List Oklab) := by
  have h : find_closest [⟨(18446744073709551616 : ℚ), 0, 0⟩] ⟨0, 0, 0⟩
      = ⟨0, 0, 0⟩ := by
    unfold find_closest closestStep
    norm_num [distSq, f32MAX]
  rw [h]
  simp only [List.mem_singleton]
  intro hc
  have := congrArg Oklab.l hc
  norm_num at this

/-- C1 witness: on the concrete palette `[(5,0,0), (1,0,0)]` and query
`(0,0,0)` the amended theorem applies and forces the answer `(1,0,0)`. -/
theorem c1_witness :
    find_closest [⟨5, 0, 0⟩, ⟨1, 0, 0⟩] ⟨0, 0, 0⟩ = ⟨1, 0, 0⟩ := by
  have h := c1_find_closest_first_min [⟨5, 0, 0⟩, ⟨1, 0, 0⟩] ⟨0, 0, 0⟩
    ⟨⟨1, 0, 0⟩, by simp, by norm_num [distSq, f32MAX]⟩
  rcases h with ⟨i, hi, heq, hmin, _⟩
  have hi2 : i < 2 := by simpa using hi
  interval_cases i
  · exfalso
    have := hmin 1 (by norm_num)
    simp only [List.get] at this
    norm_num [distSq] at this
  · simp only [List.get] at heq
    exact heq

/- ------------------------------------------------------------------ -/
/- Hex palette parsing (claims C5, C4).                                -/
/- ------------------------------------------------------------------ -/

/-- `char::to_digit(16)` on a single byte: ASCII `0-9`, `a-f`, `A-F`. -/
def hexDigitVal (c : ℕ) : Option ℕ :=
  if 48 ≤ c ∧ c ≤ 57 then some (c - 48)
  else if 97 ≤ c ∧ c ≤ 102 then some (c - 87)
  else if 65 ≤ c ∧ c ≤ 70 then some (c - 55)
  else none

/-- Whether a byte is an ASCII hexadecimal digit. -/
def isHexDigit (c : ℕ) : Bool := (hexDigitVal c).isSome

/-- The digit-accumulation loop of `u8::from_str_radix` at radix 16, with
checked (overflowing-is-an-error) arithmetic at `u8` width. -/
def radixGo : List ℕ → ℕ → Except Unit ℕ
  | [], acc => .ok acc
  | c :: cs, acc =>
    match hexDigitVal c with
    | none => .error ()
    | some d =>
      if 256 ≤ acc * 16 + d then .error () else radixGo cs (acc * 16 + d)

/-- `u8::from_str_radix(src, 16)` on the UTF-8 bytes of the slice: an
optional leading `+` (byte 43) is stripped, then a nonempty run of hex
digits is accumulated.  A leading `-` is not special for unsigned parsing:
byte 45 is not a hex digit, so it errors, exactly as in Rust. -/
def from_str_radix_u8 : List ℕ → Except Unit ℕ
  | [] => .error ()
  | c :: rest =>
    if c = 43 then
      match rest with
      | [] => .error ()
      | _ :: _ => radixGo rest 0
    else radixGo (c :: rest) 0

/-- `hex_to_rgb` (src/filter.rs:147-161), on the UTF-8 bytes of the input
string: requires byte length exactly 6, then parses the three 2-byte slices
`&hex[0..2]`, `&hex[2..4]`, `&hex[4..6]` with `u8::from_str_radix(_, 16)`
and scales each channel by 1/255.  (Byte slicing inside a multi-byte
character panics in Rust; the model returns an error there instead, which
is irrelevant for the ASCII inputs of the claims.) -/
def hex_to_rgb (hex : List ℕ) : Except Unit Srgb :=
  if hex.length ≠ 6 then .error ()
  else
    match from_str_radix_u8 (hex.take 2),
        from_str_radix_u8 ((hex.drop 2).take 2),
        from_str_radix_u8 ((hex.drop 4).take 2) with
    | .ok r, .ok g, .ok b =>
        .ok ⟨(r : ℚ) / 255, (g : ℚ) / 255, (b : ℚ) / 255⟩
    | _, _, _ => .error ()

/-- The exact condition under which `u8::from_str_radix(p, 16)` succeeds on
a 2-byte slice: two hex digits, or a leading `+` followed by one hex digit. -/
def pairOk (p : List ℕ) : Prop :=
  match p with
  | [a, b] =>
      (isHexDigit a = true ∧ isHexDigit b = true) ∨
      (a = 43 ∧ isHexDigit b = true)
  | _ => False

@[simp] lemma except_isOk_ok {ε α : Type} (v : α) :
    (Except.ok v : Except ε α).isOk = true := rfl

@[simp] lemma except_isOk_error {ε α : Type} (u : ε) :
    (Except.error u : Except ε α).isOk = false := rfl

lemma hexDigitVal_le {c d : ℕ} (h : hexDigitVal c = some d) : d ≤ 15 := by
  unfold hexDigitVal at h
  split at h
  · cases h; omega
  · split at h
    · cases h; omega
    · split at h
      · cases h; omega
      · cases h

lemma from_ok_pair (a b : ℕ) :
    (from_str_radix_u8 [a, b]).isOk = true ↔ pairOk [a, b] := by
  unfold from_str_radix_u8 pairOk
  by_cases ha : a = 43
  · subst ha
    simp only [if_pos rfl]
    have h43 : isHexDigit 43 = false := by decide
    cases hv : hexDigitVal b with
    | none =>
      simp [radixGo, hv, isHexDigit, Except.isOk, Except.toBool, h43]
    | some d =>
      have hd := hexDigitVal_le hv
      have hno : ¬ 256 ≤ d := by omega
      simp [radixGo, hv, hno, isHexDigit, Except.isOk, Except.toBool, h43]
  · simp only [if_neg ha]
    cases hv : hexDigitVal a with
    | none =>
      simp [radixGo, hv, isHexDigit, Except.isOk, Except.toBool, ha]
    | some d1 =>
      have hd1 := hexDigitVal_le hv
      have h1 : ¬ 256 ≤ d1 := by omega
      cases hw : hexDigitVal b with
      | none =>
        simp [radixGo, hv, hw, h1, isHexDigit, Except.isOk, Except.toBool, ha]
      | some d2 =>
        have hd2 := hexDigitVal_le hw
        have h2 : ¬ 256 ≤ d1 * 16 + d2 := by omega
        simp [radixGo, hv, hw, h1, h2, isHexDigit, Except.isOk, Except.toBool, ha]

lemma radixGo_le {l : List ℕ} :
    ∀ {acc v : ℕ}, radixGo l acc = .ok v → acc ≤ 255 → v ≤ 255 := by
  induction l with
  | nil =>
    intro acc v h hacc
    unfold radixGo at h
    cases h
    exact hacc
  | cons c cs ih =>
    intro acc v h hacc
    unfold radixGo at h
    cases hv : hexDigitVal c with
    | none => simp [hv] at h
    | some d =>
      simp only [hv] at h
      by_cases hov : 256 ≤ acc * 16 + d
      · simp [hov] at h
      · rw [if_neg hov] at h
        exact ih h (by omega)

lemma from_str_radix_le {p : List ℕ} {v : ℕ}
    (h : from_str_radix_u8 p = .ok v) : v ≤ 255 := by
  cases p with
  | nil => simp [from_str_radix_u8] at h
  | cons c rest =>
    by_cases hc : c = 43
    · subst hc
      cases rest with
      | nil => simp [from_str_radix_u8] at h
      | cons r rs =>
        have h' : radixGo (r :: rs) 0 = .ok v := by
          simpa [from_str_radix_u8] using h
        exact radixGo_le h' (by omega)
    · have h' : radixGo (c :: rest) 0 = .ok v := by
        simpa [from_str_radix_u8, hc] using h
      exact radixGo_le h' (by omega)

lemma list_len6 {s : List ℕ} (h : s.length = 6) :
    ∃ a b c d e f, s = [a, b, c, d, e, f] := by
  rcases s with _ | ⟨a, s⟩; · simp at h
  rcases s with _ | ⟨b, s⟩; · simp at h
  rcases s with _ | ⟨c, s⟩; · simp at h
  rcases s with _ | ⟨d, s⟩; · simp at h
  rcases s with _ | ⟨e, s⟩; · simp at h
  rcases s with _ | ⟨f, s⟩; · simp at h
  rcases s with _ | ⟨g, s⟩
  · exact ⟨a, b, c, d, e, f, rfl⟩
  · simp at h

/-- C5 (amended): `hex_to_rgb` succeeds exactly when the input has byte
length 6 and each of the three 2-byte slices is accepted by
`u8::from_str_radix(_, 16)`, i.e. is two hex digits or a `+` followed by a
single hex digit; every accepted string yields channels in [0,1].  All
strings of six hex digits are accepted, and `zz0000`/`fff` are rejected,
as the original claim states, but acceptance is not limited to pure
6-hex-digit strings (see the counterexample). -/
theorem c5_hex_parse_characterization :
    (∀ s : List ℕ, (hex_to_rgb s).isOk = true ↔
      (s.length = 6 ∧ pairOk (s.take 2) ∧ pairOk ((s.drop 2).take 2) ∧
        pairOk ((s.drop 4).take 2))) ∧
    (∀ (s : List ℕ) (rgb : Srgb), hex_to_rgb s = .ok rgb →
      (0 ≤ rgb.red ∧ rgb.red ≤ 1) ∧ (0 ≤ rgb.green ∧ rgb.green ≤ 1) ∧
        (0 ≤ rgb.blue ∧ rgb.blue ≤ 1)) := by
  constructor
  · intro s
    by_cases hlen : s.length = 6
    · obtain ⟨a, b, c, d, e, f, rfl⟩ := list_len6 hlen
      have t1 : ([a, b, c, d, e, f].take 2) = [a, b] := rfl
      have t2 : (([a, b, c, d, e, f].drop 2).take 2) = [c, d] := rfl
      have t3 : (([a, b, c, d, e, f].drop 4).take 2) = [e, f] := rfl
      rw [t1, t2, t3]
      cases h1 : from_str_radix_u8 [a, b] with
      | error u =>
        have p1 : ¬ pairOk [a, b] := by
          rw [← from_ok_pair]; simp [h1]
        simp [hex_to_rgb, t1, t2, t3, h1, p1]
      | ok r =>
        have p1 : pairOk [a, b] := (from_ok_pair a b).mp (by simp [h1])
        cases h2 : from_str_radix_u8 [c, d] with
        | error u =>
          have p2 : ¬ pairOk [c, d] := by
            rw [← from_ok_pair]; simp [h2]
          simp [hex_to_rgb, t1, t2, t3, h1, h2, p2]
        | ok g =>
          have p2 : pairOk [c, d] := (from_ok_pair c d).mp (by simp [h2])
          cases h3 : from_str_radix_u8 [e, f] with
          | error u =>
            have p3 : ¬ pairOk [e, f] := by
              rw [← from_ok_pair]; simp [h3]
            simp [hex_to_rgb, t1, t2, t3, h1, h2, h3, p3]
          | ok bl =>
            have p3 : pairOk [e, f] := (from_ok_pair e f).mp (by simp [h3])
            simp [hex_to_rgb, t1, t2, t3, h1, h2, h3, p1, p2, p3]
    · constructor
      · intro h
        exfalso
        have : (hex_to_rgb s).isOk = false := by
          simp [hex_to_rgb, hlen]
        rw [h] at this
        cases this
      · rintro ⟨h6, _⟩
        exact absurd h6 hlen
  · intro s rgb h
    have hlen : s.length = 6 := by
      by_contra hlen
      simp [hex_to_rgb, hlen] at h
    obtain ⟨a, b, c, d, e, f, rfl⟩ := list_len6 hlen
    have t1 : ([a, b, c, d, e, f].take 2) = [a, b] := rfl
    have t2 : (([a, b, c, d, e, f].drop 2).take 2) = [c, d] := rfl
    have t3 : (([a, b, c, d, e, f].drop 4).take 2) = [e, f] := rfl
    cases h1 : from_str_radix_u8 [a, b] with
    | error u => simp [hex_to_rgb, t1, h1] at h
    | ok r =>
      cases h2 : from_str_radix_u8 [c, d] with
      | error u => simp [hex_to_rgb, t1, t2, h1, h2] at h
      | ok g =>
        cases h3 : from_str_radix_u8 [e, f] with
        | error u => simp [hex_to_rgb, t1, t2, t3, h1, h2, h3] at h
        | ok bl =>
          have hrgb : rgb = ⟨(r : ℚ) / 255, (g : ℚ) / 255, (bl : ℚ) / 255⟩ := by
            have := h.symm
            simpa [hex_to_rgb, t1, t2, t3, h1, h2, h3] using this
          have hr := from_str_radix_le h1
          have hg := from_str_radix_le h2
          have hb := from_str_radix_le h3
          subst hrgb
      
      
          refine ⟨⟨by positivity, ?_⟩, ⟨by positivity, ?_⟩, ⟨by positivity, ?_⟩⟩
          · rw [div_le_one (by norm_num)]
            exact_mod_cast hr
          · rw [div_le_one (by norm_num)]
            exact_mod_cast hg
          · rw [div_le_one (by norm_num)]
            exact_mod_cast hb

/-- C5 counterexample: the 6-byte string `+fffff` (bytes `43,102,...`) is
not six hexadecimal digits, yet `hex_to_rgb` accepts it, because Rust's
`u8::from_str_radix` tolerates a leading `+` in each 2-byte slice: the
claimed "succeeds iff exactly 6 hex digits" equivalence is false. -/
theorem c5_counterexample :
    (hex_to_rgb [43, 102, 102, 102, 102, 102]).isOk = true ∧
      [43, 102, 102, 102, 102, 102].all isHexDigit = false := by
  constructor
  · rfl
  · rfl

/- ------------------------------------------------------------------ -/
/- The quantization pipeline (src/filter.rs:19-136).                   -/
/- ------------------------------------------------------------------ -/

/-- The sRGB ↔ Oklab conversion pair implemented by the external `palette`
crate (`into_color()` at src/filter.rs:37, 65, 142); the crate is not part
of this repository, so the pipeline is parameterized by the pair. -/
structure ColorConv where
  toOk : Srgb → Oklab
  toSrgb : Oklab → Srgb

/-- A trivial conversion pair used to instantiate theorems at concrete
inputs; it satisfies the exact round-trip law definitionally. -/
def idConv : ColorConv :=
  ⟨fun s => ⟨s.red, s.green, s.blue⟩, fun c => ⟨c.l, c.a, c.b⟩⟩

/-- State of the per-pixel candidate generation loop (src/filter.rs:40-43):
the two candidate vectors and the two error accumulators. -/
structure GenState where
  cc : List Oklab
  ca : List ℚ
  ec : Oklab
  ea : ℚ

/-- One iteration of the candidate loop body (src/filter.rs:44-56). -/
def genStep (pal : List Oklab) (cd ad : ℚ) (pixOk : Oklab) (alphaF : ℚ)
    (st : GenState) : GenState :=
  let sampleC := pixOk.add (st.ec.smul cd)
  let candC := find_closest pal sampleC
  let sampleA := alphaF + st.ea * ad
  let candA := rustRound sampleA
  { cc := st.cc ++ [candC]
    ca := st.ca ++ [candA]
    ec := st.ec.add (pixOk.sub candC)
    ea := st.ea + (alphaF - candA) }

/-- `for _ in 0..map_size.pow(2)` (src/filter.rs:44): `n` iterations of the
candidate loop from the empty state. -/
def genCandidates (pal : List Oklab) (cd ad : ℚ) (pixOk : Oklab)
    (alphaF : ℚ) : ℕ → GenState
  | 0 => ⟨[], [], ⟨0, 0, 0⟩, 0⟩
  | n + 1 => genStep pal cd ad pixOk alphaF (genCandidates pal cd ad pixOk alphaF n)

/-- `threshold_map[x as usize % map_size][y as usize % map_size]`
(src/filter.rs:64).  `none` models the Rust panics (`x % 0` for an empty
map, or a short row), which the `[[usize; 2]; 2]` type of the source rules
out. -/
def selectIndex (tm : List (List ℕ)) (x y : ℕ) : Option ℕ :=
  match tm[x % tm.length]? with
  | none => none
  | some row => row[y % tm.length]?

/-- The body of the per-pixel loop of `run_with_parameters`
(src/filter.rs:31-76) at coordinates `(x, y)`: normalize the four bytes,
convert to the perceptual space, generate `map_size^2` candidates, sort the
color candidates by lightness and the alpha candidates numerically, select
both by the threshold-map index, convert back and pack the four output
bytes.  `none` models an out-of-bounds candidate index (a Rust panic). -/
def quantizePixel (conv : ColorConv) (pal : List Oklab) (tm : List (List ℕ))
    (cd ad : ℚ) (x y : ℕ) (p : Rgba) : Option Rgba :=
  let mapSize := tm.length
  let alphaF := (p.a : ℚ) / 255
  let pixOk := conv.toOk ⟨(p.r : ℚ) / 255, (p.g : ℚ) / 255, (p.b : ℚ) / 255⟩
  let st := genCandidates pal cd ad pixOk alphaF (mapSize ^ 2)
  let sortedC := st.cc.insertionSort (fun u v => u.l ≤ v.l)
  let sortedA := st.ca.insertionSort (fun u v => u ≤ v)
  match selectIndex tm x y with
  | none => none
  | some index =>
    match sortedC[index]?, sortedA[index]? with
    | some chosenC, some chosenA =>
      let s := conv.toSrgb chosenC
      some ⟨as_u8 (s.red * 255), as_u8 (s.green * 255), as_u8 (s.blue * 255),
        as_u8 (chosenA * 255)⟩
    | _, _ => none

/-- An RGBA image buffer: width, height and the row-major pixel list;
flat index `i` corresponds to coordinates `(i % width, i / width)`, the
order in which `enumerate_pixels` visits the buffer. -/
structure Image where
  width : ℕ
  height : ℕ
  pix : List Rgba
deriving DecidableEq

/-- The pixel at flat index `i` (a well-formed buffer has
`pix.length = width * height`; out-of-range access yields a zero pixel). -/
def Image.pixelAt (img : Image) (i : ℕ) : Rgba :=
  img.pix.getD i ⟨0, 0, 0, 0⟩

/-- Result of a whole-image run.  `panic` models a Rust panic; `errValue`
models returning `Err(ImageError)`, which the source never does — its only
return statement is `Ok(output_buffer)`. -/
inductive RunResult where
  | panic : RunResult
  | errValue : RunResult
  | okImage : Image → RunResult
deriving DecidableEq

/-- The pixel loop of `run_with_parameters`: process flat indices
`0, 1, ..., n-1` in order, appending each output pixel to the buffer; a
per-pixel panic aborts the whole run. -/
def processPixels (f : ℕ → Option Rgba) : ℕ → Option (List Rgba)
  | 0 => some []
  | n + 1 =>
    match processPixels f n, f n with
    | some acc, some p => some (acc ++ [p])
    | _, _ => none

/-- `palette_as_oklab` (src/filter.rs:138-145): parse every entry with
`hex_to_rgb(hex).unwrap()` — a parse failure panics, modelled by `none` —
and convert each parsed color to the perceptual space, preserving order. -/
def palette_as_oklab (conv : ColorConv) (paletteHex : List (List ℕ)) :
    Option (List Oklab) :=
  match paletteHex with
  | [] => some []
  | h :: rest =>
    match hex_to_rgb h, palette_as_oklab conv rest with
    | .ok rgb, some tl => some (conv.toOk rgb :: tl)
    | _, _ => none

/-- `run_with_parameters` (src/filter.rs:19-79): build the perceptual
palette once, then map the per-pixel quantization over the whole buffer.
The Rust function's `Result` error channel is never used: the run either
panics or returns `Ok` with a fully populated buffer. -/
def run_with_parameters (conv : ColorConv) (img : Image)
    (tm : List (List ℕ)) (cd ad : ℚ) (paletteHex : List (List ℕ)) :
    RunResult :=
  match palette_as_oklab conv paletteHex with
  | none => .panic
  | some pal =>
    match processPixels
        (fun i => quantizePixel conv pal tm cd ad (i % img.width)
          (i / img.width) (img.pixelAt i))
        (img.width * img.height) with
    | none => .panic
    | some out => .okImage ⟨img.width, img.height, out⟩

/-- `THRESHOLD_MAP` (src/filter.rs:5). -/
def THRESHOLD_MAP : List (List ℕ) := [[0, 2], [3, 1]]

/-- `MAP_SIZE` (src/filter.rs:6). -/
def MAP_SIZE : ℕ := THRESHOLD_MAP.length

/-- `COLOR_DITHER = 0.04` (src/filter.rs:7), as the decimal the literal
denotes; both hosting functions share this constant, so the equivalence
claim C8 is unaffected by the `f32` rounding of the literal. -/
def COLOR_DITHER : ℚ := 4 / 100

/-- `ALPHA_DITHER = 0.12` (src/filter.rs:8). -/
def ALPHA_DITHER : ℚ := 12 / 100

/-- UTF-8 bytes of an ASCII string literal. -/
def strBytes (s : String) : List ℕ := s.data.map Char.toNat

/-- `PALETTE_HEX` (src/filter.rs:10-17): the built-in 48-entry palette. -/
def PALETTE_HEX : List String :=
  ["1b112c", "413047", "543e54", "75596f", "91718b", "b391aa", "ccb3c6",
   "e3cfe3", "fff7ff", "fffbb5", "faf38e", "f7d076", "fa9c69", "eb7363",
   "e84545", "c22e53", "943054", "612147", "3d173c", "3f233c", "66334b",
   "8c4b63", "c16a7d", "e5959f", "ffccd0", "dd8d9f", "c8658d", "b63f82",
   "9e2083", "731f7a", "47195d", "2a143d", "183042", "1e5451", "2a6957",
   "3b804d", "5aa653", "86cf74", "caf095", "e0f0bd", "3f275e", "3f317a",
   "3c548f", "456aa1", "4a84b0", "56aec4", "92d7d9", "c3ebe3"]

/-- The default palette as byte strings, as fed to the hex parser. -/
def PALETTE_HEX_BYTES : List (List ℕ) := PALETTE_HEX.map strBytes

/-- `run` (src/filter.rs:81-136): the second, textually duplicated
implementation of the algorithm, with the default threshold map, dither
coefficients and palette inlined in place of parameters. -/
def run (conv : ColorConv) (img : Image) : RunResult :=
  match palette_as_oklab conv PALETTE_HEX_BYTES with
  | none => .panic
  | some pal =>
    match processPixels
        (fun i => quantizePixel conv pal THRESHOLD_MAP COLOR_DITHER
          ALPHA_DITHER (i % img.width) (i / img.width) (img.pixelAt i))
        (img.width * img.height) with
    | none => .panic
    | some out => .okImage ⟨img.width, img.height, out⟩

/- ------------------------------------------------------------------ -/
/- C8: the duplicated default implementation.                          -/
/- ------------------------------------------------------------------ -/

/-- C8: for every conversion pair and input image, the duplicated
default-configuration implementation `run` produces exactly the result of
the parameterized `run_with_parameters` applied to the documented defaults:
threshold map `[[0,2],[3,1]]`, `colorDither = 0.04`, `alphaDither = 0.12`,
and the built-in 48-entry palette. -/
theorem c8_run_equals_parameterized_defaults (conv : ColorConv) (img : Image) :
    run conv img =
      run_with_parameters conv img [[0, 2], [3, 1]] (4 / 100) (12 / 100)
        PALETTE_HEX_BYTES := rfl

/- ------------------------------------------------------------------ -/
/- C4: behaviour on malformed palettes.                                -/
/- ------------------------------------------------------------------ -/

lemma palette_as_oklab_none_of_bad {conv : ColorConv} {hexes : List (List ℕ)}
    (h : ∃ hx ∈ hexes, (hex_to_rgb hx).isOk = false) :
    palette_as_oklab conv hexes = none := by
  induction hexes with
  | nil => rcases h with ⟨hx, hmem, _⟩; cases hmem
  | cons hd tl ih =>
    rcases h with ⟨hx, hmem, hbad⟩
    rcases List.mem_cons.mp hmem with rfl | hmem
    · cases hhd : hex_to_rgb hx with
      | ok rgb => rw [hhd] at hbad; cases hbad
      | error u => simp [palette_as_oklab, hhd]
    · have htl : palette_as_oklab conv tl = none := ih ⟨hx, hmem, hbad⟩
      cases hhd : hex_to_rgb hd with
      | ok rgb => simp [palette_as_oklab, hhd, htl]
      | error u => simp [palette_as_oklab, hhd]

lemma palette_as_oklab_some_of_ok {conv : ColorConv} {hexes : List (List ℕ)}
    (h : ∀ hx ∈ hexes, (hex_to_rgb hx).isOk = true) :
    ∃ pal, palette_as_oklab conv hexes = some pal := by
  induction hexes with
  | nil => exact ⟨[], rfl⟩
  | cons hd tl ih =>
    have hhd := h hd (List.mem_cons_self hd tl)
    cases hh : hex_to_rgb hd with
    | error u => rw [hh] at hhd; cases hhd
    | ok rgb =>
      rcases ih (fun hx hm => h hx (List.mem_cons_of_mem hd hm)) with ⟨tl2, htl⟩
      exact ⟨conv.toOk rgb :: tl2, by simp [palette_as_oklab, hh, htl]⟩

/-- Membership transfer from parsed hex entries into the cached palette. -/
lemma palette_as_oklab_mem {conv : ColorConv} {hexes : List (List ℕ)}
    {pal : List Oklab} (h : palette_as_oklab conv hexes = some pal)
    {hx : List ℕ} {rgb : Srgb} (hmem : hx ∈ hexes)
    (hok : hex_to_rgb hx = .ok rgb) : conv.toOk rgb ∈ pal := by
  induction hexes generalizing pal with
  | nil => cases hmem
  | cons hd tl ih =>
    cases hh : hex_to_rgb hd with
    | error u => simp [palette_as_oklab, hh] at h
    | ok rgb0 =>
      cases htl : palette_as_oklab conv tl with
      | none => simp [palette_as_oklab, hh, htl] at h
      | some tl2 =>
        have hpal : pal = conv.toOk rgb0 :: tl2 := by
          have := h.symm
          simpa [palette_as_oklab, hh, htl] using this
        subst hpal
        rcases List.mem_cons.mp hmem with rfl | hmem2
        · rw [hok] at hh
          cases hh
          exact List.mem_cons_self _ _
        · exact List.mem_cons_of_mem _ (ih htl hmem2)

lemma genCandidates_len (pal : List Oklab) (cd ad : ℚ) (pixOk : Oklab)
    (alphaF : ℚ) (n : ℕ) :
    (genCandidates pal cd ad pixOk alphaF n).cc.length = n ∧
      (genCandidates pal cd ad pixOk alphaF n).ca.length = n := by
  induction n with
  | zero => exact ⟨rfl, rfl⟩
  | succ n ih =>
    simp only [genCandidates, genStep]
    constructor
    · simp [ih.1]
    · simp [ih.2]

/-- Under the documented threshold-map shape invariants, the selection
index exists and is strictly below the candidate count `map_size^2`. -/
lemma selectIndex_some {tm : List (List ℕ)} (h0 : 0 < tm.length)
    (hrow : ∀ row ∈ tm, tm.length ≤ row.length)
    (hent : ∀ row ∈ tm, ∀ v ∈ row, v < tm.length ^ 2) (x y : ℕ) :
    ∃ i, selectIndex tm x y = some i ∧ i < tm.length ^ 2 := by
  have hx : x % tm.length < tm.length := Nat.mod_lt x h0
  have hrowget : tm[x % tm.length]? = some (tm.get ⟨x % tm.length, hx⟩) :=
    List.getElem?_eq_getElem hx
  set row := tm.get ⟨x % tm.length, hx⟩ with hrowdef
  have hrowmem : row ∈ tm := List.get_mem tm _ hx
  have hy : y % tm.length < row.length :=
    lt_of_lt_of_le (Nat.mod_lt y h0) (hrow row hrowmem)
  have hentget : row[y % tm.length]? = some (row.get ⟨y % tm.length, hy⟩) :=
    List.getElem?_eq_getElem hy
  refine ⟨row.get ⟨y % tm.length, hy⟩, ?_, ?_⟩
  · simp [selectIndex, hrowget, hentget]
  · exact hent row hrowmem _ (List.get_mem row _ hy)

/-- Under the same invariants the per-pixel computation cannot fail. -/
lemma quantizePixel_isSome (conv : ColorConv) (pal : List Oklab)
    {tm : List (List ℕ)} (h0 : 0 < tm.length)
    (hrow : ∀ row ∈ tm, tm.length ≤ row.length)
    (hent : ∀ row ∈ tm, ∀ v ∈ row, v < tm.length ^ 2)
    (cd ad : ℚ) (x y : ℕ) (p : Rgba) :
    (quantizePixel conv pal tm cd ad x y p).isSome = true := by
  rcases selectIndex_some h0 hrow hent x y with ⟨i, hsel, hlt⟩
  have hlc : (genCandidates pal cd ad
      (conv.toOk ⟨(p.r : ℚ) / 255, (p.g : ℚ) / 255, (p.b : ℚ) / 255⟩)
      ((p.a : ℚ) / 255) (tm.length ^ 2)).cc.length = tm.length ^ 2 :=
    (genCandidates_len _ _ _ _ _ _).1
  have hla : (genCandidates pal cd ad
      (conv.toOk ⟨(p.r : ℚ) / 255, (p.g : ℚ) / 255, (p.b : ℚ) / 255⟩)
      ((p.a : ℚ) / 255) (tm.length ^ 2)).ca.length = tm.length ^ 2 :=
    (genCandidates_len _ _ _ _ _ _).2
  have hc : i < ((genCandidates pal cd ad
      (conv.toOk ⟨(p.r : ℚ) / 255, (p.g : ℚ) / 255, (p.b : ℚ) / 255⟩)
      ((p.a : ℚ) / 255) (tm.length ^ 2)).cc.insertionSort
        (fun u v => u.l ≤ v.l)).length := by
    rw [List.length_insertionSort, hlc]; exact hlt
  have ha : i < ((genCandidates pal cd ad
      (conv.toOk ⟨(p.r : ℚ) / 255, (p.g : ℚ) / 255, (p.b : ℚ) / 255⟩)
      ((p.a : ℚ) / 255) (tm.length ^ 2)).ca.insertionSort
        (fun u v => u ≤ v)).length := by
    rw [List.length_insertionSort, hla]; exact hlt
  have hcv : ((genCandidates pal cd ad
      (conv.toOk ⟨(p.r : ℚ) / 255, (p.g : ℚ) / 255, (p.b : ℚ) / 255⟩)
      ((p.a : ℚ) / 255) (tm.length ^ 2)).cc.insertionSort
        (fun u v => u.l ≤ v.l))[i]? = some (((genCandidates pal cd ad
      (conv.toOk ⟨(p.r : ℚ) / 255, (p.g : ℚ) / 255, (p.b : ℚ) / 255⟩)
      ((p.a : ℚ) / 255) (tm.length ^ 2)).cc.insertionSort
        (fun u v => u.l ≤ v.l)).get ⟨i, hc⟩) := List.getElem?_eq_getElem hc
  have hav : ((genCandidates pal cd ad
      (conv.toOk ⟨(p.r : ℚ) / 255, (p.g : ℚ) / 255, (p.b : ℚ) / 255⟩)
      ((p.a : ℚ) / 255) (tm.length ^ 2)).ca.insertionSort
        (fun u v => u ≤ v))[i]? = some (((genCandidates pal cd ad
      (conv.toOk ⟨(p.r : ℚ) / 255, (p.g : ℚ) / 255, (p.b : ℚ) / 255⟩)
      ((p.a : ℚ) / 255) (tm.length ^ 2)).ca.insertionSort
        (fun u v => u ≤ v)).get ⟨i, ha⟩) := List.getElem?_eq_getElem ha
  simp [quantizePixel, hsel, hcv, hav]

lemma processPixels_isSome_of_all {f : ℕ → Option Rgba} :
    ∀ {n : ℕ}, (∀ i < n, (f i).isSome = true) →
      ∃ out, processPixels f n = some out ∧ out.length = n := by
  intro n
  induction n with
  | zero => exact fun _ => ⟨[], rfl, rfl⟩
  | succ n ih =>
    intro h
    rcases ih (fun i hi => h i (Nat.lt_succ_of_lt hi)) with ⟨out, hout, hlen⟩
    have hn := h n (Nat.lt_succ_self n)
    rcases Option.isSome_iff_exists.mp hn with ⟨p, hp⟩
    refine ⟨out ++ [p], ?_, by simp [hlen]⟩
    simp [processPixels, hout, hp]

lemma processPixels_mem {f : ℕ → Option Rgba} :
    ∀ {n : ℕ} {out : List Rgba}, processPixels f n = some out →
      ∀ p ∈ out, ∃ i, i < n ∧ f i = some p := by
  intro n
  induction n with
  | zero =>
    intro out h p hp
    cases h
    cases hp
  | succ n ih =>
    intro out h p hp
    unfold processPixels at h
    cases hacc : processPixels f n with
    | none => rw [hacc] at h; cases h
    | some acc =>
      rw [hacc] at h
      cases hfn : f n with
      | none => rw [hfn] at h; cases h
      | some q =>
        rw [hfn] at h
        cases h
        rcases List.mem_append.mp hp with hm | hm
        · rcases ih hacc p hm with ⟨i, hi, hfi⟩
          exact ⟨i, Nat.lt_succ_of_lt hi, hfi⟩
        · rcases List.mem_singleton.mp hm with rfl
          exact ⟨n, Nat.lt_succ_self n, hfn⟩

lemma processPixels_of_all_eq {f : ℕ → Option Rgba} {g : ℕ → Rgba} :
    ∀ {n : ℕ}, (∀ i < n, f i = some (g i)) →
      processPixels f n = some ((List.range n).map g) := by
  intro n
  induction n with
  | zero => exact fun _ => rfl
  | succ n ih =>
    intro h
    have hout := ih (fun i hi => h i (Nat.lt_succ_of_lt hi))
    have hn := h n (Nat.lt_succ_self n)
    rw [List.range_succ, List.map_append]
    simp [processPixels, hout, hn]

/-- C4 (amended): a malformed palette entry makes the whole run PANIC (the
`unwrap` inside `palette_as_oklab`) before any pixel is processed, so no
output — partial or otherwise — exists; no error value is ever returned on
the `Result` channel (the code's only return statement is `Ok`); and when
every entry parses (and the threshold map satisfies its documented shape
invariant) the run returns a fully populated buffer.  There is no
per-pixel error path. -/
theorem c4_palette_failure_panics :
    (∀ (conv : ColorConv) (img : Image) (tm : List (List ℕ)) (cd ad : ℚ)
      (hexes : List (List ℕ)),
      (∃ hx ∈ hexes, (hex_to_rgb hx).isOk = false) →
        run_with_parameters conv img tm cd ad hexes = .panic) ∧
    (∀ (conv : ColorConv) (img : Image) (tm : List (List ℕ)) (cd ad : ℚ)
      (hexes : List (List ℕ)),
      run_with_parameters conv img tm cd ad hexes ≠ .errValue) ∧
    (∀ (conv : ColorConv) (img : Image) (tm : List (List ℕ)) (cd ad : ℚ)
      (hexes : List (List ℕ)),
      (∀ hx ∈ hexes, (hex_to_rgb hx).isOk = true) →
      0 < tm.length →
      (∀ row ∈ tm, tm.length ≤ row.length) →
      (∀ row ∈ tm, ∀ v ∈ row, v < tm.length ^ 2) →
      ∃ out : Image,
        run_with_parameters conv img tm cd ad hexes = .okImage out ∧
        out.width = img.width ∧ out.height = img.height ∧
        out.pix.length = img.width * img.height) := by
  refine ⟨?_, ?_, ?_⟩
  · intro conv img tm cd ad hexes h
    simp [run_with_parameters, palette_as_oklab_none_of_bad h]
  · intro conv img tm cd ad hexes
    unfold run_with_parameters
    cases hpal : palette_as_oklab conv hexes with
    | none => simp
    | some pal =>
      cases hpp : processPixels
          (fun i => quantizePixel conv pal tm cd ad (i % img.width)
            (i / img.width) (img.pixelAt i)) (img.width * img.height) with
      | none => simp [hpp]
      | some out => simp [hpp]
  · intro conv img tm cd ad hexes hok h0 hrow hent
    rcases @palette_as_oklab_some_of_ok conv hexes hok with ⟨pal, hpal⟩
    rcases @processPixels_isSome_of_all
        (fun i => quantizePixel conv pal tm cd ad (i % img.width)
          (i / img.width) (img.pixelAt i))
        (img.width * img.height)
        (fun i _ => quantizePixel_isSome conv pal h0 hrow hent cd ad _ _ _)
      with ⟨out, hout, hlen⟩
    refine ⟨⟨img.width, img.height, out⟩, ?_, rfl, rfl, hlen⟩
    simp [run_with_parameters, hpal, hout]

/-- C4 counterexample: on the malformed palette `["zz0000"]` the run ends
in a panic (the model of the Rust `unwrap` failure), not in a returned
error value, refuting "returns a PaletteParseError to the caller (as an
error value, not a crash)". -/
theorem c4_counterexample :
    run_with_parameters idConv ⟨1, 1, [⟨0, 0, 0, 0⟩]⟩ [[0, 2], [3, 1]]
        (4 / 100) (12 / 100) [[122, 122, 48, 48, 48, 48]] = .panic ∧
      RunResult.panic ≠ RunResult.errValue := by
  constructor
  · rfl
  · intro h
    cases h

/-- C4 witness: the amended theorem applied at concrete inputs — the
palette `["zz0000"]` panics, and the well-formed palette `["000000"]`
returns an `Ok` image (neither an error value nor a panic). -/
theorem c4_witness :
    run_with_parameters idConv ⟨1, 1, [⟨0, 0, 0, 0⟩]⟩ [[0, 2], [3, 1]]
        (4 / 100) (12 / 100) [[122, 122, 48, 48, 48, 48]] = .panic ∧
    run_with_parameters idConv ⟨1, 1, [⟨0, 0, 0, 0⟩]⟩ [[0, 2], [3, 1]]
        (4 / 100) (12 / 100) [[48, 48, 48, 48, 48, 48]] ≠ .errValue ∧
    run_with_parameters idConv ⟨1, 1, [⟨0, 0, 0, 0⟩]⟩ [[0, 2], [3, 1]]
        (4 / 100) (12 / 100) [[48, 48, 48, 48, 48, 48]] ≠ .panic := by
  refine ⟨?_, ?_, ?_⟩
  · exact c4_palette_failure_panics.1 idConv ⟨1, 1, [⟨0, 0, 0, 0⟩]⟩
      [[0, 2], [3, 1]] (4 / 100) (12 / 100) [[122, 122, 48, 48, 48, 48]]
      ⟨[122, 122, 48, 48, 48, 48], List.mem_singleton.mpr rfl, rfl⟩
  · exact c4_palette_failure_panics.2.1 idConv ⟨1, 1, [⟨0, 0, 0, 0⟩]⟩
      [[0, 2], [3, 1]] (4 / 100) (12 / 100) [[48, 48, 48, 48, 48, 48]]
  · obtain ⟨out, heq, -, -, -⟩ :=
      c4_palette_failure_panics.2.2 idConv ⟨1, 1, [⟨0, 0, 0, 0⟩]⟩
        [[0, 2], [3, 1]] (4 / 100) (12 / 100) [[48, 48, 48, 48, 48, 48]]
        (by intro hx hm; rcases List.mem_singleton.mp hm with rfl; rfl)
        (by decide) (by decide) (by decide)
    rw [heq]
    intro h
    cases h

/- ------------------------------------------------------------------ -/
/- C7: threshold-map selection stays in bounds.                        -/
/- ------------------------------------------------------------------ -/

/-- C7: for an N×N threshold map (N > 0, as the source type
`[[usize; 2]; 2]` guarantees) containing every integer of `0..N²-1`
exactly once, every pixel coordinate `(x, y)` selects the in-range index
`thresholdMap[x mod N][y mod N] < N²`, and the subsequent indexing into
the N²-element sorted candidate lists cannot fail. -/
theorem c7_threshold_index_in_bounds (tm : List (List ℕ)) (N : ℕ)
    (hN : tm.length = N) (h0 : 0 < N)
    (hrow : ∀ row ∈ tm, row.length = N)
    (hbij : tm.flatten.Perm (List.range (N ^ 2))) :
    ∀ x y : ℕ, ∃ i, selectIndex tm x y = some i ∧ i < N ^ 2 ∧
      ∀ (conv : ColorConv) (pal : List Oklab) (cd ad : ℚ) (p : Rgba),
        (quantizePixel conv pal tm cd ad x y p).isSome = true := by
  subst hN
  have hent : ∀ row ∈ tm, ∀ v ∈ row, v < tm.length ^ 2 := by
    intro row hr v hv
    have hmem : v ∈ tm.flatten := List.mem_flatten.mpr ⟨row, hr, hv⟩
    exact List.mem_range.mp (hbij.mem_iff.mp hmem)
  have hrow2 : ∀ row ∈ tm, tm.length ≤ row.length := fun row hr =>
    le_of_eq (hrow row hr).symm
  intro x y
  rcases selectIndex_some h0 hrow2 hent x y with ⟨i, hsel, hlt⟩
  exact ⟨i, hsel, hlt, fun conv pal cd ad p =>
    quantizePixel_isSome conv pal h0 hrow2 hent cd ad x y p⟩

/-- C7 witness: the theorem applied to the default threshold map
`[[0,2],[3,1]]` (a bijection onto 0..3) at coordinates (1, 0), with an
arbitrary conversion, empty palette and zero dither coefficients: the
per-pixel computation succeeds. -/
theorem c7_witness :
    (quantizePixel idConv [] [[0, 2], [3, 1]] 0 0 1 0 ⟨0, 0, 0, 0⟩).isSome
      = true := by
  obtain ⟨i, -, -, h⟩ :=
    c7_threshold_index_in_bounds [[0, 2], [3, 1]] 2 rfl (by decide)
      (by decide) (by decide) 1 0
  exact h idConv [] 0 0 ⟨0, 0, 0, 0⟩

/- ------------------------------------------------------------------ -/
/- C2: zero dither collapses to direct nearest-color quantization.     -/
/- ------------------------------------------------------------------ -/

lemma Oklab.smul_zero (u : Oklab) : u.smul 0 = ⟨0, 0, 0⟩ := by
  simp [Oklab.smul]

lemma Oklab.zero_smul (c : ℚ) : (⟨0, 0, 0⟩ : Oklab).smul c = ⟨0, 0, 0⟩ := by
  simp [Oklab.smul]

lemma Oklab.add_zero (u : Oklab) : u.add ⟨0, 0, 0⟩ = u := by
  simp [Oklab.add]

lemma Oklab.sub_self (u : Oklab) : u.sub u = ⟨0, 0, 0⟩ := by
  simp [Oklab.sub]

/-- With both dither coefficients zero, every candidate of the generation
loop is the direct nearest color, and every alpha candidate is the direct
binary rounding: only the error accumulators vary. -/
lemma genCandidates_no_dither (pal : List Oklab) (pixOk : Oklab)
    (alphaF : ℚ) (n : ℕ) :
    ∃ ec ea, genCandidates pal 0 0 pixOk alphaF n =
      ⟨List.replicate n (find_closest pal pixOk),
        List.replicate n (rustRound alphaF), ec, ea⟩ := by
  induction n with
  | zero => exact ⟨⟨0, 0, 0⟩, 0, rfl⟩
  | succ n ih =>
    rcases ih with ⟨ec, ea, hgen⟩
    refine ⟨ec.add (pixOk.sub (find_closest pal pixOk)),
      ea + (alphaF - rustRound alphaF), ?_⟩
    simp only [genCandidates, hgen, genStep, Oklab.smul_zero, Oklab.add_zero,
      mul_zero, add_zero]
    rw [List.replicate_succ' n, List.replicate_succ' n]

/-- Sorting a constant list returns it unchanged. -/
lemma insertionSort_replicate {α : Type} (r : α → α → Prop) [DecidableRel r]
    (n : ℕ) (a : α) :
    List.insertionSort r (List.replicate n a) = List.replicate n a := by
  have hp := List.perm_insertionSort r (List.replicate n a)
  refine List.eq_replicate_iff.mpr ⟨?_, ?_⟩
  · rw [hp.length_eq, List.length_replicate]
  · intro b hb
    exact List.eq_of_mem_replicate (hp.mem_iff.mp hb)

/-- Derived from the spec (§4.3, §8): per-pixel direct nearest-palette
quantization — convert the pixel to the perceptual space, take the single
nearest palette color, convert back, and binary-round the normalized
alpha.  This is the reference behaviour the dither-free algorithm must
collapse to. -/
def specDirectQuantizePixel (conv : ColorConv) (pal : List Oklab)
    (p : Rgba) : Rgba :=
  let s := conv.toSrgb (find_closest pal
    (conv.toOk ⟨(p.r : ℚ) / 255, (p.g : ℚ) / 255, (p.b : ℚ) / 255⟩))
  ⟨as_u8 (s.red * 255), as_u8 (s.green * 255), as_u8 (s.blue * 255),
    as_u8 (rustRound ((p.a : ℚ) / 255) * 255)⟩

/-- Derived from the spec (§8): whole-image direct quantization, mapping
`specDirectQuantizePixel` over every pixel; no threshold map occurs. -/
def specDirectQuantizeImage (conv : ColorConv) (pal : List Oklab)
    (img : Image) : Image :=
  ⟨img.width, img.height,
    (List.range (img.width * img.height)).map
      (fun i => specDirectQuantizePixel conv pal (img.pixelAt i))⟩

lemma quantizePixel_no_dither (conv : ColorConv) (pal : List Oklab)
    {tm : List (List ℕ)} (h0 : 0 < tm.length)
    (hrow : ∀ row ∈ tm, tm.length ≤ row.length)
    (hent : ∀ row ∈ tm, ∀ v ∈ row, v < tm.length ^ 2)
    (x y : ℕ) (p : Rgba) :
    quantizePixel conv pal tm 0 0 x y p
      = some (specDirectQuantizePixel conv pal p) := by
  rcases selectIndex_some h0 hrow hent x y with ⟨i, hsel, hlt⟩
  obtain ⟨ec, ea, hgen⟩ := genCandidates_no_dither pal
    (conv.toOk ⟨(p.r : ℚ) / 255, (p.g : ℚ) / 255, (p.b : ℚ) / 255⟩)
    ((p.a : ℚ) / 255) (tm.length ^ 2)
  simp only [quantizePixel, hgen, hsel]
  rw [insertionSort_replicate, insertionSort_replicate,
    List.getElem?_replicate_of_lt hlt, List.getElem?_replicate_of_lt hlt]
  rfl

/-- C2: with `colorDither = 0` and `alphaDither = 0` and a threshold map
satisfying its documented shape invariant, the run succeeds and equals the
per-pixel direct nearest-palette quantization with binary-rounded alpha —
a result in which the threshold map does not occur at all, so the output
is independent of the (well-formed) threshold map contents. -/
theorem c2_zero_dither_is_direct_quantization (conv : ColorConv)
    (img : Image) (tm : List (List ℕ)) (hexes : List (List ℕ))
    (pal : List Oklab) (hpal : palette_as_oklab conv hexes = some pal)
    (h0 : 0 < tm.length)
    (hrow : ∀ row ∈ tm, tm.length ≤ row.length)
    (hent : ∀ row ∈ tm, ∀ v ∈ row, v < tm.length ^ 2) :
    run_with_parameters conv img tm 0 0 hexes
      = .okImage (specDirectQuantizeImage conv pal img) := by
  have hpix : ∀ i < img.width * img.height,
      quantizePixel conv pal tm 0 0 (i % img.width) (i / img.width)
        (img.pixelAt i) = some (specDirectQuantizePixel conv pal (img.pixelAt i)) :=
    fun i _ => quantizePixel_no_dither conv pal h0 hrow hent _ _ _
  have hpp := processPixels_of_all_eq hpix
  simp [run_with_parameters, hpal, hpp, specDirectQuantizeImage]

/-- C2 witness: the theorem applied at a concrete 1×1 image, the default
threshold map, and the one-entry palette `["1b112c"]`. -/
theorem c2_witness :
    run_with_parameters idConv ⟨1, 1, [⟨10, 20, 30, 100⟩]⟩ [[0, 2], [3, 1]]
        0 0 [[49, 98, 49, 49, 50, 99]]
      = .okImage (specDirectQuantizeImage idConv
          [⟨((27 : ℕ) : ℚ) / 255, ((17 : ℕ) : ℚ) / 255, ((44 : ℕ) : ℚ) / 255⟩]
          ⟨1, 1, [⟨10, 20, 30, 100⟩]⟩) :=
  c2_zero_dither_is_direct_quantization idConv ⟨1, 1, [⟨10, 20, 30, 100⟩]⟩
    [[0, 2], [3, 1]] [[49, 98, 49, 49, 50, 99]]
    [⟨((27 : ℕ) : ℚ) / 255, ((17 : ℕ) : ℚ) / 255, ((44 : ℕ) : ℚ) / 255⟩]
    rfl (by decide) (by decide) (by decide)

/- ------------------------------------------------------------------ -/
/- Fixed-point behaviour of the per-pixel quantization on palette-     -/
/- exact pixels (helper lemmas, used below for a concrete run).        -/
/- ------------------------------------------------------------------ -/

lemma hex_to_rgb_ok_shape {hx : List ℕ} {rgb : Srgb}
    (h : hex_to_rgb hx = .ok rgb) :
    ∃ r g b : ℕ, r ≤ 255 ∧ g ≤ 255 ∧ b ≤ 255 ∧
      rgb = ⟨(r : ℚ) / 255, (g : ℚ) / 255, (b : ℚ) / 255⟩ := by
  have hlen : hx.length = 6 := by
    by_contra hlen
    simp [hex_to_rgb, hlen] at h
  obtain ⟨a, b, c, d, e, f, rfl⟩ := list_len6 hlen
  have t1 : ([a, b, c, d, e, f].take 2) = [a, b] := rfl
  have t2 : (([a, b, c, d, e, f].drop 2).take 2) = [c, d] := rfl
  have t3 : (([a, b, c, d, e, f].drop 4).take 2) = [e, f] := rfl
  cases h1 : from_str_radix_u8 [a, b] with
  | error u => simp [hex_to_rgb, t1, h1] at h
  | ok r =>
    cases h2 : from_str_radix_u8 [c, d] with
    | error u => simp [hex_to_rgb, t1, t2, h1, h2] at h
    | ok g =>
      cases h3 : from_str_radix_u8 [e, f] with
      | error u => simp [hex_to_rgb, t1, t2, t3, h1, h2, h3] at h
      | ok bl =>
        refine ⟨r, g, bl, from_str_radix_le h1, from_str_radix_le h2,
          from_str_radix_le h3, ?_⟩
        have := h.symm
        simpa [hex_to_rgb, t1, t2, t3, h1, h2, h3] using this

lemma rustRound_zero : rustRound 0 = 0 := by
  unfold rustRound
  norm_num

lemma rustRound_one : rustRound 1 = 1 := by
  unfold rustRound
  norm_num

lemma as_u8_natCast {n : ℕ} (h : n ≤ 255) : as_u8 (n : ℚ) = n := by
  unfold as_u8
  have h1 : ¬ ((n : ℚ) < 0) := not_lt.mpr (by positivity)
  have h2 : ¬ ((255 : ℚ) < (n : ℚ)) := by exact_mod_cast Nat.not_lt.mpr h
  rw [if_neg h1, if_neg h2]
  simp

/-- When the pixel color is already (exactly) a palette color and the
error accumulators start at zero, every iteration reproduces the pixel
itself and the accumulators stay zero, for arbitrary dither coefficients. -/
lemma genCandidates_fixed {pal : List Oklab} {pixOk : Oklab} {alphaF : ℚ}
    (cd ad : ℚ) (hfc : find_closest pal pixOk = pixOk)
    (hrr : rustRound alphaF = alphaF) (n : ℕ) :
    genCandidates pal cd ad pixOk alphaF n =
      ⟨List.replicate n pixOk, List.replicate n alphaF, ⟨0, 0, 0⟩, 0⟩ := by
  induction n with
  | zero => rfl
  | succ n ih =>
    simp only [genCandidates, ih, genStep, Oklab.zero_smul, Oklab.add_zero,
      zero_mul, add_zero, hfc, hrr, Oklab.sub_self, sub_self]
    rw [List.replicate_succ' n, List.replicate_succ' n]

lemma map_getD_range {α : Type} (l : List α) (d : α) :
    (List.range l.length).map (fun i => l.getD i d) = l := by
  apply List.ext_getElem
  · simp
  · intro n h1 h2
    simp only [List.getElem_map, List.getElem_range,
      List.getD_eq_getElem?_getD, List.getElem?_eq_getElem h2]
    rfl

/-- A pixel whose bytes exactly match a palette entry and whose alpha is
binary is reproduced unchanged by the per-pixel quantization, provided the
conversion round-trips exactly on it. -/
lemma quantizePixel_fixed (conv : ColorConv) (pal : List Oklab)
    {tm : List (List ℕ)} (h0 : 0 < tm.length)
    (hrow : ∀ row ∈ tm, tm.length ≤ row.length)
    (hent : ∀ row ∈ tm, ∀ v ∈ row, v < tm.length ^ 2)
    (cd ad : ℚ) (x y : ℕ) (p : Rgba)
    (hr : p.r ≤ 255) (hg : p.g ≤ 255) (hb : p.b ≤ 255)
    (hmem : conv.toOk ⟨(p.r : ℚ) / 255, (p.g : ℚ) / 255, (p.b : ℚ) / 255⟩ ∈ pal)
    (hRT : conv.toSrgb (conv.toOk
        ⟨(p.r : ℚ) / 255, (p.g : ℚ) / 255, (p.b : ℚ) / 255⟩)
      = ⟨(p.r : ℚ) / 255, (p.g : ℚ) / 255, (p.b : ℚ) / 255⟩)
    (ha : p.a = 0 ∨ p.a = 255) :
    quantizePixel conv pal tm cd ad x y p = some p := by
  rcases selectIndex_some h0 hrow hent x y with ⟨i, hsel, hlt⟩
  have hfc : find_closest pal
      (conv.toOk ⟨(p.r : ℚ) / 255, (p.g : ℚ) / 255, (p.b : ℚ) / 255⟩)
      = conv.toOk ⟨(p.r : ℚ) / 255, (p.g : ℚ) / 255, (p.b : ℚ) / 255⟩ :=
    find_closest_self hmem
  have halphaF : ((p.a : ℚ) / 255 = 0 ∧ p.a = 0) ∨
      ((p.a : ℚ) / 255 = 1 ∧ p.a = 255) := by
    rcases ha with h | h <;> rw [h]
    · exact Or.inl ⟨by norm_num, rfl⟩
    · exact Or.inr ⟨by norm_num, rfl⟩
  have hrr : rustRound ((p.a : ℚ) / 255) = (p.a : ℚ) / 255 := by
    rcases halphaF with ⟨h, _⟩ | ⟨h, _⟩ <;> rw [h]
    · exact rustRound_zero
    · exact rustRound_one
  have hgen := @genCandidates_fixed pal
    (conv.toOk ⟨(p.r : ℚ) / 255, (p.g : ℚ) / 255, (p.b : ℚ) / 255⟩)
    ((p.a : ℚ) / 255) cd ad hfc hrr (tm.length ^ 2)
  simp only [quantizePixel, hgen, hsel]
  rw [insertionSort_replicate, insertionSort_replicate,
    List.getElem?_replicate_of_lt hlt, List.getElem?_replicate_of_lt hlt]
  have hred : as_u8 ((p.r : ℚ) / 255 * 255) = p.r := by
    have : (p.r : ℚ) / 255 * 255 = (p.r : ℚ) := by norm_num
    rw [this]; exact as_u8_natCast hr
  have hgreen : as_u8 ((p.g : ℚ) / 255 * 255) = p.g := by
    have : (p.g : ℚ) / 255 * 255 = (p.g : ℚ) := by norm_num
    rw [this]; exact as_u8_natCast hg
  have hblue : as_u8 ((p.b : ℚ) / 255 * 255) = p.b := by
    have : (p.b : ℚ) / 255 * 255 = (p.b : ℚ) := by norm_num
    rw [this]; exact as_u8_natCast hb
  have halout : as_u8 ((p.a : ℚ) / 255 * 255) = p.a := by
    rcases halphaF with ⟨h, h2⟩ | ⟨h, h2⟩ <;> rw [h, h2]
    · norm_num [as_u8]
    · have : (1 : ℚ) * 255 = 255 := by norm_num
      rw [this]
      have h255 : ((255 : ℕ) : ℚ) = (255 : ℚ) := by norm_num
      rw [← h255]
      exact as_u8_natCast (le_refl 255)
  simp only [hRT, hred, hgreen, hblue, halout]

/- ------------------------------------------------------------------ -/
/- C10: the output alpha byte is always exactly 0 or 255.              -/
/- ------------------------------------------------------------------ -/

lemma rustRound_int (q : ℚ) : ∃ m : ℤ, rustRound q = (m : ℚ) := by
  unfold rustRound
  split
  · exact ⟨_, rfl⟩
  · exact ⟨_, rfl⟩

lemma genCandidates_ca_int (pal : List Oklab) (cd ad : ℚ) (pixOk : Oklab)
    (alphaF : ℚ) :
    ∀ n, ∀ q ∈ (genCandidates pal cd ad pixOk alphaF n).ca,
      ∃ m : ℤ, q = (m : ℚ) := by
  intro n
  induction n with
  | zero =>
    intro q hq
    simp [genCandidates] at hq
  | succ n ih =>
    intro q hq
    simp only [genCandidates, genStep] at hq
    rcases List.mem_append.mp hq with hm | hm
    · exact ih q hm
    · rcases List.mem_singleton.mp hm with rfl
      exact rustRound_int _

/-- The saturating cast sends `m * 255` to 0 for every integer `m ≤ 0`
and to 255 for every integer `m ≥ 1`: no intermediate byte can appear. -/
lemma as_u8_int_mul255 (m : ℤ) :
    as_u8 ((m : ℚ) * 255) = 0 ∨ as_u8 ((m : ℚ) * 255) = 255 := by
  by_cases h : m ≤ 0
  · left
    unfold as_u8
    by_cases h0 : (m : ℚ) * 255 < 0
    · rw [if_pos h0]
    · rw [if_neg h0]
      have hm : (m : ℚ) ≤ 0 := by exact_mod_cast h
      have hz : (m : ℚ) * 255 = 0 :=
        le_antisymm (by nlinarith) (not_lt.mp h0)
      rw [hz]
      norm_num
  · right
    have h1 : (1 : ℤ) ≤ m := by omega
    have h1q : (1 : ℚ) ≤ (m : ℚ) := by exact_mod_cast h1
    have h255 : (255 : ℚ) ≤ (m : ℚ) * 255 := by nlinarith
    unfold as_u8
    rw [if_neg (not_lt.mpr (by linarith))]
    by_cases h2 : (255 : ℚ) < (m : ℚ) * 255
    · rw [if_pos h2]
    · rw [if_neg h2]
      have : (m : ℚ) * 255 = 255 := le_antisymm (not_lt.mp h2) h255
      rw [this]
      norm_num
      decide

lemma quantizePixel_alpha {conv : ColorConv} {pal : List Oklab}
    {tm : List (List ℕ)} {cd ad : ℚ} {x y : ℕ} {p q : Rgba}
    (h : quantizePixel conv pal tm cd ad x y p = some q) :
    q.a = 0 ∨ q.a = 255 := by
  cases hsel : selectIndex tm x y with
  | none => simp [quantizePixel, hsel] at h
  | some idx =>
    cases hc : ((genCandidates pal cd ad
        (conv.toOk ⟨(p.r : ℚ) / 255, (p.g : ℚ) / 255, (p.b : ℚ) / 255⟩)
        ((p.a : ℚ) / 255) (tm.length ^ 2)).cc.insertionSort
          (fun u v => u.l ≤ v.l))[idx]? with
    | none => simp [quantizePixel, hsel, hc] at h
    | some cv =>
      cases ha : ((genCandidates pal cd ad
          (conv.toOk ⟨(p.r : ℚ) / 255, (p.g : ℚ) / 255, (p.b : ℚ) / 255⟩)
          ((p.a : ℚ) / 255) (tm.length ^ 2)).ca.insertionSort
            (fun u v => u ≤ v))[idx]? with
      | none => simp [quantizePixel, hsel, hc, ha] at h
      | some av =>
        have hq : q = ⟨as_u8 ((conv.toSrgb cv).red * 255),
            as_u8 ((conv.toSrgb cv).green * 255),
            as_u8 ((conv.toSrgb cv).blue * 255), as_u8 (av * 255)⟩ := by
          have := h.symm
          simpa [quantizePixel, hsel, hc, ha] using this
        have hmem : av ∈ (genCandidates pal cd ad
            (conv.toOk ⟨(p.r : ℚ) / 255, (p.g : ℚ) / 255, (p.b : ℚ) / 255⟩)
            ((p.a : ℚ) / 255) (tm.length ^ 2)).ca :=
          (List.mem_insertionSort _).mp (List.getElem?_mem ha)
        obtain ⟨m, rfl⟩ := genCandidates_ca_int _ _ _ _ _ _ av hmem
        rw [hq]
        exact as_u8_int_mul255 m

/-- C10: whatever the image, threshold map, dither coefficients and
palette, every pixel of a completed run's output buffer has an alpha byte
that is exactly 0 or exactly 255: each alpha candidate is a `round()`
result and hence an integer, and the saturating `as u8` cast of
`integer × 255` can only produce 0 or 255. -/
theorem c10_output_alpha_binary (conv : ColorConv) (img : Image)
    (tm : List (List ℕ)) (cd ad : ℚ) (hexes : List (List ℕ)) (out : Image)
    (h : run_with_parameters conv img tm cd ad hexes = .okImage out) :
    ∀ p ∈ out.pix, p.a = 0 ∨ p.a = 255 := by
  cases hpal : palette_as_oklab conv hexes with
  | none => simp [run_with_parameters, hpal] at h
  | some pal =>
    cases hpp : processPixels
        (fun i => quantizePixel conv pal tm cd ad (i % img.width)
          (i / img.width) (img.pixelAt i)) (img.width * img.height) with
    | none => simp [run_with_parameters, hpal, hpp] at h
    | some outl =>
      have hout : out = ⟨img.width, img.height, outl⟩ := by
        have := h.symm
        simpa [run_with_parameters, hpal, hpp] using this
      subst hout
      intro p hp
      obtain ⟨i, _, hqp⟩ := processPixels_mem hpp p hp
      exact quantizePixel_alpha hqp

/-- C10 witness: the theorem applied to a completed concrete run (the 1×1
image over the palette `["1b112c"]`), at its single output pixel. -/
theorem c10_witness :
    (Rgba.mk 27 17 44 255).a = 0 ∨ (Rgba.mk 27 17 44 255).a = 255 := by
  have hfix : quantizePixel idConv
      [⟨((27 : ℕ) : ℚ) / 255, ((17 : ℕ) : ℚ) / 255, ((44 : ℕ) : ℚ) / 255⟩]
      [[0, 2], [3, 1]] (4 / 100) (12 / 100) 0 0 ⟨27, 17, 44, 255⟩
      = some ⟨27, 17, 44, 255⟩ :=
    quantizePixel_fixed idConv _ (by decide) (by decide) (by decide)
      (4 / 100) (12 / 100) 0 0 ⟨27, 17, 44, 255⟩ (by decide) (by decide)
      (by decide) (List.mem_singleton.mpr rfl) rfl (Or.inr rfl)
  have hall : ∀ i < 1, quantizePixel idConv
      [⟨((27 : ℕ) : ℚ) / 255, ((17 : ℕ) : ℚ) / 255, ((44 : ℕ) : ℚ) / 255⟩]
      [[0, 2], [3, 1]] (4 / 100) (12 / 100) (i % 1) (i / 1)
      (Image.pixelAt ⟨1, 1, [⟨27, 17, 44, 255⟩]⟩ i)
      = some ((fun _ => Rgba.mk 27 17 44 255) i) := by
    intro i hi
    have hz : i = 0 := by omega
    subst hz
    exact hfix
  have hpp := processPixels_of_all_eq hall
  have hrun : run_with_parameters idConv ⟨1, 1, [⟨27, 17, 44, 255⟩]⟩
      [[0, 2], [3, 1]] (4 / 100) (12 / 100) [[49, 98, 49, 49, 50, 99]]
      = .okImage ⟨1, 1, [⟨27, 17, 44, 255⟩]⟩ := by
    have hpal : palette_as_oklab idConv [[49, 98, 49, 49, 50, 99]]
        = some [⟨((27 : ℕ) : ℚ) / 255, ((17 : ℕ) : ℚ) / 255,
          ((44 : ℕ) : ℚ) / 255⟩] := rfl
    simp at hpp
    simp [run_with_parameters, hpal, hpp]
  exact c10_output_alpha_binary idConv ⟨1, 1, [⟨27, 17, 44, 255⟩]⟩
    [[0, 2], [3, 1]] (4 / 100) (12 / 100) [[49, 98, 49, 49, 50, 99]]
    ⟨1, 1, [⟨27, 17, 44, 255⟩]⟩ hrun ⟨27, 17, 44, 255⟩ (by simp)

/-- C5 witness: the amended theorem applied to the palette entry
`1b112c` (bytes `49,98,49,49,50,99`), whose parsed channels
`(27/255, 17/255, 44/255)` all lie in [0,1]. -/
theorem c5_witness :
    ((0 : ℚ) ≤ ((27 : ℕ) : ℚ) / 255 ∧ ((27 : ℕ) : ℚ) / 255 ≤ 1) ∧
    ((0 : ℚ) ≤ ((17 : ℕ) : ℚ) / 255 ∧ ((17 : ℕ) : ℚ) / 255 ≤ 1) ∧
    ((0 : ℚ) ≤ ((44 : ℕ) : ℚ) / 255 ∧ ((44 : ℕ) : ℚ) / 255 ≤ 1) :=
  c5_hex_parse_characterization.2 [49, 98, 49, 49, 50, 99]
    ⟨((27 : ℕ) : ℚ) / 255, ((17 : ℕ) : ℚ) / 255, ((44 : ℕ) : ℚ) / 255⟩ rfl
